import Mathlib

/-!
Verification of the NYT Strands solver core (solver.js / wordLoader.js):
a shallow embedding of the word enumerator (`findWordsDFS`), the prefix
trie (`buildPrefixTree` / `hasPref`), the word-list loader
(`loadWordList`) and the tiling solver (`solvePuzzle`), with theorems
about the specified properties.

Modelling conventions:
  * JS `Set` values keyed by `"row,col"` strings become `Finset Cell`
    with `Cell := ℤ × ℤ` (the string key is injective in the pair);
    JS `Set<string>` inputs become `List String` queried by `contains`,
    or `Finset String` where the set itself is the result.
  * JS `Map` (insertion ordered, `set` on an existing key keeps its
    position) becomes an association list updated in place.
  * `Array.prototype.sort`, stable with a numeric comparator, becomes a
    stable insertion sort under the same key.
  * Mutable state of `solvePuzzle` is threaded through a `SolveState`
    record; the recursion is driven by a fuel argument that is provably
    never exhausted at the initial fuel the wrappers pass.
  * Two observation-only fields instrument `SolveState`: `progressLog`
    records the arguments of each `onProgress` call (with the raw cell
    count in place of the derived `coverage / total * 100` percentage,
    a strictly monotone transform), and `everCoverage` records the
    largest `usedPositions.size` ever seen at an entry of
    `solveRecursive`.  Neither influences control flow.
-/

namespace StrandsSolver

/-- A grid coordinate, `(row, col)`.  Integers, because the JS code forms
`row + dr` with `dr ∈ {-1,0,1}` and tests `newRow < 0`. -/
abbrev Cell := ℤ × ℤ

/-- A candidate: a word paired with the path (list of cells) spelling it. -/
abbrev Cand := String × List Cell

/-- The letter the code reads at a position: `this.grid[r][c].toUpperCase()`.
Out-of-range defaults (never reached by the guarded reads) are `'A'`,
a fixed point of `Char.toUpper`. -/
def gridLetter (grid : List (List Char)) (r c : ℤ) : Char :=
  ((grid.getD r.toNat []).getD c.toNat 'A').toUpper

/-- The word spelled along a path, reading each cell through `gridLetter`
(i.e. through `toUpperCase`, as `findWordsDFS` does). -/
def spellPath (grid : List (List Char)) (p : List Cell) : String :=
  ⟨p.map (fun rc => gridLetter grid rc.1 rc.2)⟩

/-- Modelled from the spec: property (E2) reads `w == concat(grid[c] for c in p)`,
the concatenation of the raw grid letters along `p`, without the
`toUpperCase` the code applies.  Used only to compare the spec's wording
against the code's reading. -/
def rawWordOf (grid : List (List Char)) (p : List Cell) : String :=
  ⟨p.map (fun rc => (grid.getD rc.1.toNat []).getD rc.2.toNat 'A')⟩

/-! ## Prefix trie (`buildPrefixTree`, `hasPrefix`)

The JS trie is a nested object whose `'$'` key marks a terminal node;
the model carries the terminal mark as a `Bool` field (the spec, §9,
treats the two representations as equivalent).  Children are an
association list: insertion updates an existing child in place and
appends a missing one, as JS property assignment does. -/

inductive Trie where
  | node (terminal : Bool) (children : List (Char × Trie))

/-- The children of a trie node. -/
def Trie.children : Trie → List (Char × Trie)
  | .node _ cs => cs

/-- The terminal mark of a trie node (the JS `'$'` key). -/
def Trie.terminal : Trie → Bool
  | .node t _ => t

/-- The child of a node along one letter. -/
def Trie.child (t : Trie) (c : Char) : Option Trie :=
  t.children.lookup c

/-- Replace the child at `c`, or append it when absent (JS property
assignment on the nested object). -/
def setChild : List (Char × Trie) → Char → Trie → List (Char × Trie)
  | [], c, u => [(c, u)]
  | (c', u') :: rest, c, u =>
    if c' = c then (c, u) :: rest else (c', u') :: setChild rest c u

/-- Insert one word: descend, creating missing children (`current[letter] = {}`),
and set the terminal mark on the last node (`current['$'] = true`). -/
def trieInsert (t : Trie) : List Char → Trie
  | [] => .node true t.children
  | c :: rest =>
    let sub := match t.child c with
      | some u => u
      | none => .node false []
    .node t.terminal (setChild t.children c (trieInsert sub rest))

/-- `buildPrefixTree`: fold `trieInsert` over the word set, starting from
the empty root `{}`. -/
def buildPrefixTree (wordSet : List String) : Trie :=
  wordSet.foldl (fun t w => trieInsert t w.data) (.node false [])

/-- The letter-by-letter walk of `hasPrefix`: fail on a missing edge,
succeed when the prefix is exhausted (terminal or not). -/
def hasPrefAux : Trie → List Char → Bool
  | _, [] => true
  | t, c :: rest =>
    match t.child c with
    | none => false
    | some u => hasPrefAux u rest

/-- `hasPrefix(prefix)` of the Solver class. -/
def hasPref (t : Trie) (p : String) : Bool :=
  hasPrefAux t p.data

/-! ## Word-list loader (`loadWordList` in wordLoader.js)

For each line: trim, uppercase, and keep the result iff its length is at
least 4.  (The code applies no character filter.)  The JS `Set` result is
a `Finset String`.  `String.prototype.trim` and
`String.prototype.toUpperCase` are modelled at the character-list level
(drop whitespace from both ends; map `Char.toUpper`). -/

/-- JS `String.prototype.trim`: drop whitespace from both ends. -/
def trimString (s : String) : String :=
  ⟨((s.data.dropWhile Char.isWhitespace).reverse.dropWhile Char.isWhitespace).reverse⟩

/-- JS `String.prototype.toUpperCase`, on the basic latin alphabet. -/
def upperString (s : String) : String :=
  ⟨s.data.map Char.toUpper⟩

def loadWordList (lines : List String) : Finset String :=
  lines.foldl (fun wordSet line =>
    let word := upperString (trimString line)
    if 4 ≤ word.length then insert word wordSet else wordSet) ∅

/-! ## Word enumerator (`findWordsDFS`) -/

/-- The Solver class data: the grid and the dictionary.  `rows`, `cols`
and `prefixTree` are the derived constructor fields. -/
structure Solver where
  grid : List (List Char)
  wordSet : List String

/-- `this.rows = grid.length`. -/
def Solver.rows (sv : Solver) : ℕ := sv.grid.length

/-- `this.cols = grid[0].length`. -/
def Solver.cols (sv : Solver) : ℕ := (sv.grid.headD []).length

/-- `this.prefixTree = this.buildPrefixTree(this.wordSet)`. -/
def Solver.prefixTree (sv : Solver) : Trie := buildPrefixTree sv.wordSet

/-- The eight neighbor offsets, in the fixed order of the source. -/
def directions : List (ℤ × ℤ) :=
  [(-1, -1), (-1, 0), (-1, 1), (0, -1), (0, 1), (1, -1), (1, 0), (1, 1)]

/-- `uniqueWords.set(word, path)` guarded by
`!uniqueWords.has(word) || path.length > stored.length`: update in place
when strictly longer, append when new, keep otherwise. -/
def updateUnique (w : String) (p : List Cell) :
    List (String × List Cell) → List (String × List Cell)
  | [] => [(w, p)]
  | (w', p') :: rest =>
    if w' = w then
      (if p'.length < p.length then (w, p) :: rest else (w', p') :: rest)
    else (w', p') :: updateUnique w p rest

/-- The recursive `dfs` closure of `findWordsDFS`.  The closure's
captured environment (`this.rows`, `this.cols`, the letter read
`this.grid[r][c].toUpperCase()` as the function `letter`,
`this.prefixTree`, `this.wordSet`, and the call's `usedPositions`,
`blacklistedWords` and length bounds) is passed as parameters.  The
accumulator pairs the `uniqueWords` map with the ordered list of record
events (each time the record condition holds, the `(word, path)` pair is
appended); the event list is observation only.  Fuel decreases with each
step of the path; `findWordsDFSCore` supplies `rows * cols`, which is
never exhausted because a path holds distinct in-bounds cells. -/
def dfsAux (rows cols : ℕ) (letter : ℤ → ℤ → Char) (tr : Trie)
    (wordSet : List String) (usedPositions : Finset Cell) (blacklistedWords : List String)
    (minLength maxLength : ℕ) :
    ℕ → ℤ → ℤ → String → List Cell → Finset Cell →
    List (String × List Cell) × List (String × List Cell) →
    List (String × List Cell) × List (String × List Cell)
  | 0, _, _, _, _, _, acc => acc
  | fuel + 1, row, col, currentWord, currentPath, visited, acc =>
    let acc :=
      if minLength ≤ currentWord.length ∧ wordSet.contains currentWord = true ∧
          blacklistedWords.contains currentWord = false then
        (updateUnique currentWord currentPath acc.1, acc.2 ++ [(currentWord, currentPath)])
      else acc
    if maxLength ≤ currentWord.length then acc
    else if hasPref tr currentWord = false then acc
    else
      directions.foldl (fun acc' d =>
        let newRow := row + d.1
        let newCol := col + d.2
        if newRow < 0 ∨ (rows : ℤ) ≤ newRow ∨ newCol < 0 ∨ (cols : ℤ) ≤ newCol then
          acc'
        else if (newRow, newCol) ∈ visited then acc'
        else if (newRow, newCol) ∈ usedPositions then acc'
        else
          dfsAux rows cols letter tr wordSet usedPositions blacklistedWords minLength
            maxLength fuel newRow newCol
            (currentWord.push (letter newRow newCol))
            (currentPath ++ [(newRow, newCol)])
            (insert (newRow, newCol) visited) acc') acc

/-- `findWordsDFS` up to the final sort: the bounds and occupancy guards
on the start cell, then the DFS from the start letter.  Returns the
`uniqueWords` association list (insertion ordered) and the event list. -/
def findWordsDFSCore (sv : Solver) (startRow startCol : ℤ) (usedPositions : Finset Cell)
    (blacklistedWords : List String) (minLength maxLength : ℕ) :
    List (String × List Cell) × List (String × List Cell) :=
  if startRow < 0 ∨ (sv.rows : ℤ) ≤ startRow ∨ startCol < 0 ∨ (sv.cols : ℤ) ≤ startCol then
    ([], [])
  else if (startRow, startCol) ∈ usedPositions then ([], [])
  else
    dfsAux sv.rows sv.cols (gridLetter sv.grid) sv.prefixTree sv.wordSet usedPositions
      blacklistedWords minLength maxLength (sv.rows * sv.cols)
      startRow startCol ⟨[gridLetter sv.grid startRow startCol]⟩
      [(startRow, startCol)] {(startRow, startCol)} ([], [])

/-- Stable insertion for the final sort of `findWordsDFS`
(`(a, b) => b[0].length - a[0].length`): a later element goes after
every earlier element of length at least its own. -/
def insertByLen (x : String × List Cell) :
    List (String × List Cell) → List (String × List Cell)
  | [] => [x]
  | y :: ys => if x.1.length ≤ y.1.length then y :: insertByLen x ys else x :: y :: ys

/-- The stable sort by word length descending. -/
def sortByLenDesc (l : List (String × List Cell)) : List (String × List Cell) :=
  l.foldl (fun acc x => insertByLen x acc) []

/-- `findWordsDFS(startRow, startCol, usedPositions, blacklistedWords,
minLength, maxLength)`. -/
def findWordsDFS (sv : Solver) (startRow startCol : ℤ) (usedPositions : Finset Cell)
    (blacklistedWords : List String) (minLength maxLength : ℕ) :
    List (String × List Cell) :=
  sortByLenDesc
    (findWordsDFSCore sv startRow startCol usedPositions blacklistedWords
      minLength maxLength).1

/-! ## Tiling solver (`solvePuzzle`) -/

/-- The mutable state of one `solvePuzzle` call.  `progressLog` and
`everCoverage` are observation only (see the file header). -/
structure SolveState where
  attempts : ℕ
  used : Finset Cell
  current : List Cand
  best : List Cand
  bestCoverage : ℕ
  progressLog : List (ℕ × ℕ × ℕ)
  everCoverage : ℕ

/-- The set of cells covered by a placement, accumulated exactly as
`solvePuzzle` seeds `usedPositions` from `existingWords`. -/
def cellsOf (sol : List Cand) : Finset Cell :=
  sol.foldl (fun u wc => wc.2.foldl (fun u' c => insert c u') u) ∅

/-- `canPlaceWord(coords)`: no coordinate is already used. -/
def canPlaceWord (used : Finset Cell) (coords : List Cell) : Bool :=
  coords.all (fun c => decide (c ∉ used))

/-- `placeWord(word, coords)`: add the cells and push the pair. -/
def placeWord (s : SolveState) (wc : Cand) : SolveState :=
  { s with used := wc.2.foldl (fun u c => insert c u) s.used,
           current := s.current ++ [wc] }

/-- `removeWord()`: pop the last pair and delete its cells.  (The JS pop
on an empty array never happens; the model returns the state unchanged
there.) -/
def removeWord (s : SolveState) : SolveState :=
  match s.current.getLast? with
  | none => s
  | some wc =>
    { s with current := s.current.dropLast,
             used := wc.2.foldl (fun u c => u.erase c) s.used }

/-- The per-cell position score: 4 at corners, 2 on edges, 1 inside. -/
def positionScore (rows cols : ℕ) (coords : List Cell) : ℕ :=
  coords.foldl (fun acc rc =>
    acc + (if (rc.1 = 0 ∨ rc.1 = (rows : ℤ) - 1) ∧ (rc.2 = 0 ∨ rc.2 = (cols : ℤ) - 1) then 4
           else if rc.1 = 0 ∨ rc.1 = (rows : ℤ) - 1 ∨ rc.2 = 0 ∨ rc.2 = (cols : ℤ) - 1 then 2
           else 1)) 0

/-- `priority = -length * 1000 - positionScore`; `length` is the third
element of each pool triple, which the caller (app.js) fills with
`coords.length`. -/
def wordPriority (rows cols : ℕ) (wc : Cand) : ℤ :=
  -(wc.2.length : ℤ) * 1000 - (positionScore rows cols wc.2 : ℤ)

/-- Stable insertion for the priority sort (`(a, b) => a.priority - b.priority`,
ascending). -/
def insertByPriority (rows cols : ℕ) (x : Cand) : List Cand → List Cand
  | [] => [x]
  | y :: ys =>
    if wordPriority rows cols y ≤ wordPriority rows cols x then
      y :: insertByPriority rows cols x ys
    else x :: y :: ys

/-- The prioritized pool: stable sort by ascending priority. -/
def prioritizeWords (rows cols : ℕ) (pool : List Cand) : List Cand :=
  pool.foldl (fun acc x => insertByPriority rows cols x acc) []

/-- The `for (let i = wordIndex; ...)` loop of `solveRecursive`, with the
remaining sublist standing for the index range `i ..` and `f` standing
for the recursive call `solveRecursive(i + 1)`. -/
def solveLoop (f : List Cand → SolveState → Bool × SolveState) :
    List Cand → SolveState → Bool × SolveState
  | [], s => (false, s)
  | wc :: rest, s =>
    if canPlaceWord s.used wc.2 = true then
      match f rest (placeWord s wc) with
      | (true, s') => (true, s')
      | (false, s') => solveLoop f rest (removeWord s')
    else solveLoop f rest s

/-- The entry of `solveRecursive`: `attempts++` (and the observation-only
`everCoverage` update). -/
def entryState (s : SolveState) : SolveState :=
  { s with attempts := s.attempts + 1, everCoverage := max s.everCoverage s.used.card }

/-- The per-1000-attempt block of `solveRecursive` (run on the state
`entryState` produced, whose `attempts` is the fresh count): snapshot
`best` when coverage strictly exceeds `bestCoverage`, then record the
`onProgress` arguments. -/
def pollState (s : SolveState) : SolveState :=
  if s.attempts % 1000 = 0 then
    let coverage := s.used.card
    let s' := if s.bestCoverage < coverage then
        { s with bestCoverage := coverage, best := s.current }
      else s
    { s' with progressLog := s'.progressLog ++ [(s.attempts, s.current.length, coverage)] }
  else s

/-- `solveRecursive(wordIndex)`: count the attempt; every 1000 attempts
snapshot `best` if coverage strictly improved, report progress, and fail
on cancel; then the all-covered success check, the budget check, and the
word loop.  Fuel decreases per recursion level; the wrapper passes
`pool.length + 1`, which is never exhausted since each level drops at
least one pool element. -/
def solveRec (total maxAttempts : ℕ) (cancel : ℕ → Bool) :
    ℕ → List Cand → SolveState → Bool × SolveState
  | 0, _, s => (false, s)
  | fuel + 1, rest, s =>
    let s2 := pollState (entryState s)
    if s2.attempts % 1000 = 0 ∧ cancel s2.attempts = true then (false, s2)
    else if s2.used.card = total then (true, s2)
    else if maxAttempts < s2.attempts then (false, s2)
    else solveLoop (solveRec total maxAttempts cancel fuel) rest s2

/-- `solvePuzzle` up to the final dispatch: seed the state from
`existingWords`, prioritize the pool, and run the recursion.  Returns the
success flag together with the final state. -/
def solvePuzzleFull (rows cols : ℕ) (allWords existingWords : List Cand)
    (cancel : ℕ → Bool) (maxAttempts : ℕ) : Bool × SolveState :=
  let used0 := cellsOf existingWords
  let s0 : SolveState :=
    { attempts := 0, used := used0, current := existingWords, best := [],
      bestCoverage := used0.card, progressLog := [], everCoverage := used0.card }
  let pw := prioritizeWords rows cols allWords
  solveRec (rows * cols) maxAttempts cancel (pw.length + 1) pw s0

/-- `solvePuzzle(allWords, existingWords, onProgress, shouldCancel,
maxAttempts)`: the final dispatch on the recursion outcome.  `none` is
the JS `null` sentinel. -/
def solvePuzzle (rows cols : ℕ) (allWords existingWords : List Cand)
    (cancel : ℕ → Bool) (maxAttempts : ℕ) : Option (List Cand) :=
  let r := solvePuzzleFull rows cols allWords existingWords cancel maxAttempts
  if r.1 = true then some r.2.current
  else if 0 < r.2.best.length then some r.2.best
  else if 0 < existingWords.length then some existingWords
  else none

/-! ## Specification predicates -/

/-- Two cells are 8-neighbors: both offsets within one, not both zero. -/
def isNeighbor (a b : Cell) : Prop :=
  b.1 - a.1 ≤ 1 ∧ -1 ≤ b.1 - a.1 ∧ b.2 - a.2 ≤ 1 ∧ -1 ≤ b.2 - a.2 ∧ b ≠ a

/-- A cell within the grid of a solver. -/
def inBounds (sv : Solver) (c : Cell) : Prop :=
  0 ≤ c.1 ∧ c.1 < (sv.rows : ℤ) ∧ 0 ≤ c.2 ∧ c.2 < (sv.cols : ℤ)

/-- A path qualifying for word `w` from a start cell: nonempty, starting
there, a simple 8-path of in-bounds unoccupied cells, spelling `w`. -/
def Qualifies (sv : Solver) (startRow startCol : ℤ) (usedPositions : Finset Cell)
    (w : String) (p : List Cell) : Prop :=
  p ≠ [] ∧ p.head? = some (startRow, startCol) ∧ List.Chain' isNeighbor p ∧
    p.Nodup ∧ (∀ c ∈ p, inBounds sv c ∧ c ∉ usedPositions) ∧ spellPath sv.grid p = w

/-- Cell-disjointness of two candidates' paths. -/
def disjCand (a b : Cand) : Prop := ∀ c ∈ a.2, c ∉ b.2

/-- The index of the first occurrence of a word in a list of words
(the list's length when absent); used to state first-discovery order. -/
def idxOf (w : String) : List String → ℕ
  | [] => 0
  | x :: xs => if x = w then 0 else idxOf w xs + 1

/-- The soundness facts every record event of the DFS carries: a
nonempty simple 8-path of in-bounds unoccupied cells starting at the
start cell, spelling the word through `letter`, with the word length
within the bounds (`max maxLength 1` because the start cell is recorded
before the length cutoff applies), in the dictionary and not
blacklisted. -/
def EventOk (rows cols : ℕ) (letter : ℤ → ℤ → Char) (wordSet : List String)
    (usedPositions : Finset Cell) (blacklistedWords : List String)
    (minLength maxLength : ℕ) (startRow startCol : ℤ) (e : String × List Cell) : Prop :=
  e.2 ≠ [] ∧ e.2.head? = some (startRow, startCol) ∧ List.Chain' isNeighbor e.2 ∧
  e.2.Nodup ∧
  (∀ x ∈ e.2, (0 ≤ x.1 ∧ x.1 < (rows : ℤ) ∧ 0 ≤ x.2 ∧ x.2 < (cols : ℤ)) ∧
    x ∉ usedPositions) ∧
  e.1.data = e.2.map (fun x => letter x.1 x.2) ∧
  minLength ≤ e.1.length ∧ e.1.length ≤ max maxLength 1 ∧
  wordSet.contains e.1 = true ∧ blacklistedWords.contains e.1 = false

/-- The precondition of a `dfs` node: the growing path is a nonempty
simple 8-path of in-bounds unoccupied cells from the start cell to the
node's cell, the growing word spells it, the visited set is its cell
set, and its length respects the cutoff discipline. -/
def DfsPre (rows cols : ℕ) (letter : ℤ → ℤ → Char) (usedPositions : Finset Cell)
    (maxLength : ℕ) (startRow startCol row col : ℤ) (w : String)
    (path : List Cell) (visited : Finset Cell) : Prop :=
  path ≠ [] ∧ path.head? = some (startRow, startCol) ∧
  path.getLast? = some (row, col) ∧ List.Chain' isNeighbor path ∧ path.Nodup ∧
  (∀ x ∈ path, (0 ≤ x.1 ∧ x.1 < (rows : ℤ) ∧ 0 ≤ x.2 ∧ x.2 < (cols : ℤ)) ∧
    x ∉ usedPositions) ∧
  w.data = path.map (fun x => letter x.1 x.2) ∧
  visited = path.toFinset ∧ path.length ≤ max maxLength 1

/-- The relation between the `uniqueWords` map and the event list: map
keys are distinct, each entry's path is the first event recorded for its
word, map keys and event keys coincide as sets, and map entries are
ordered by first-event position. -/
def UmEv (um ev : List (String × List Cell)) : Prop :=
  (um.map Prod.fst).Nodup ∧
  (∀ wp ∈ um, ev.lookup wp.1 = some wp.2) ∧
  (∀ w : String, w ∈ um.map Prod.fst ↔ w ∈ ev.map Prod.fst) ∧
  um.Pairwise (fun a b =>
    idxOf a.1 (ev.map Prod.fst) < idxOf b.1 (ev.map Prod.fst))

/-- The full invariant on a DFS accumulator. -/
def DfsInv (rows cols : ℕ) (letter : ℤ → ℤ → Char) (wordSet : List String)
    (usedPositions : Finset Cell) (blacklistedWords : List String)
    (minLength maxLength : ℕ) (startRow startCol : ℤ)
    (acc : List (String × List Cell) × List (String × List Cell)) : Prop :=
  (∀ e ∈ acc.2, EventOk rows cols letter wordSet usedPositions blacklistedWords
    minLength maxLength startRow startCol e) ∧ UmEv acc.1 acc.2

/-- The coverage column of a progress log (the third argument of each
`onProgress` call). -/
def covs (log : List (ℕ × ℕ × ℕ)) : List ℕ := log.map (fun e => e.2.2)

/-- The maximum of a list of naturals, 0 when empty. -/
def listMax (l : List ℕ) : ℕ := l.foldr max 0

/-- The invariant `solveRecursive` maintains, relative to the committed
placement `committed` the state was seeded from: `usedPositions` is the
cell set of `currentSolution`; `committed` stays a positional prefix of
`currentSolution` (and of `bestSolution` once set); pairwise
disjointness propagates from `committed`; `bestCoverage` equals the
maximum of the seed coverage and every coverage reported at a poll; and
`bestSolution`, when nonempty, covers exactly `bestCoverage` cells. -/
structure SInv (committed : List Cand) (s : SolveState) : Prop where
  usedEq : s.used = cellsOf s.current
  pre : committed <+: s.current
  disj : committed.Pairwise disjCand → s.current.Pairwise disjCand
  bestCov : s.bestCoverage = max (cellsOf committed).card (listMax (covs s.progressLog))
  bestCase : (s.best = [] ∧ s.bestCoverage = (cellsOf committed).card) ∨
    ((cellsOf s.best).card = s.bestCoverage ∧ (cellsOf committed).card < s.bestCoverage ∧
      committed <+: s.best ∧ (committed.Pairwise disjCand → s.best.Pairwise disjCand))

/-- Concrete solver input: one word covering cell `(0, 0)` of a 1-by-2
grid; the search improves on the empty committed coverage but stays far
below 1000 attempts, so no poll ever snapshots the improvement. -/
def shortPool : List Cand := [("W", [((0 : ℤ), (0 : ℤ))])]

/-- Concrete solver input: one covering word followed by ten no-op words
with empty coordinate lists.  The backtracking first explores every
filler subset with `"A"` placed (attempts 2 to 1025, coverage 1), then
without it (coverage 0), so the polls at attempts 1000 and 2000 report
a strictly decreasing coverage sequence. -/
def decreasingPool : List Cand :=
  ("A", [((0 : ℤ), (0 : ℤ))]) :: List.replicate 10 ("F", ([] : List Cell))

/-- Concrete solver input: nine three-cell words on rows 10 to 18 (off the
1-by-2 grid, so they never complete it) sorted ahead of the two-cell word
`"Z"` that alone covers the grid.  With a cancel hook that is constantly
true, the poll at attempt 1000 observes the cancel, yet the search
reaches the `"Z"`-only branch at attempt 1023 and returns it as a
complete success. -/
def lateSuccessPool : List Cand :=
  (List.range 9).map (fun i =>
    ("F", [((10 + i : ℤ), (0 : ℤ)), ((10 + i : ℤ), (1 : ℤ)), ((10 + i : ℤ), (2 : ℤ))]))
  ++ [("Z", [((0 : ℤ), (0 : ℤ)), ((0 : ℤ), (1 : ℤ))])]

/-- A solver state whose next attempt number, 1000, lands on a poll. -/
def pollReadyState : SolveState :=
  { attempts := 999, used := ∅, current := [], best := [], bestCoverage := 0,
    progressLog := [], everCoverage := 0 }

/-- Concrete DFS input: a 1-by-4 grid spelling CATS with the one-word
dictionary. -/
def svCats : Solver := { grid := [['C', 'A', 'T', 'S']], wordSet := ["CATS"] }

/-- Concrete DFS input: a lowercase 1-by-1 grid with the dictionary
containing only the uppercase word. -/
def svLower : Solver := { grid := [['a']], wordSet := ["A"] }

/-! ## Basic lemmas on the state operations -/

theorem foldl_insert_eq_union (cs : List Cell) (u : Finset Cell) :
    cs.foldl (fun u' c => insert c u') u = u ∪ cs.toFinset := by
  induction cs generalizing u with
  | nil => simp
  | cons c cs ih => simp [ih, Finset.union_insert, Finset.insert_union]

theorem foldl_erase_eq_sdiff (cs : List Cell) (u : Finset Cell) :
    cs.foldl (fun u' c => u'.erase c) u = u \ cs.toFinset := by
  induction cs generalizing u with
  | nil => simp
  | cons c cs ih =>
    simp only [List.foldl_cons, ih, List.toFinset_cons]
    ext x
    simp only [Finset.mem_sdiff, Finset.mem_erase, Finset.mem_insert]
    tauto

theorem union_sdiff_cancel_of_fresh (u T : Finset Cell) (h : ∀ c ∈ T, c ∉ u) :
    (u ∪ T) \ T = u := by
  ext x
  simp only [Finset.mem_sdiff, Finset.mem_union]
  constructor
  · rintro ⟨hx | hx, hnx⟩
    · exact hx
    · exact absurd hx hnx
  · intro hx
    exact ⟨Or.inl hx, fun hT => h x hT hx⟩

theorem cellsOf_foldl (l : List Cand) (u : Finset Cell) :
    l.foldl (fun acc wc => wc.2.foldl (fun u' c => insert c u') acc) u = u ∪ cellsOf l := by
  induction l generalizing u with
  | nil => simp [cellsOf]
  | cons a l ih =>
    simp only [cellsOf, List.foldl_cons] at *
    rw [ih, ih (a.2.foldl (fun u' c => insert c u') ∅)]
    rw [foldl_insert_eq_union, foldl_insert_eq_union]
    simp [Finset.union_assoc]

theorem cellsOf_cons (a : Cand) (l : List Cand) :
    cellsOf (a :: l) = a.2.toFinset ∪ cellsOf l := by
  have h1 : cellsOf (a :: l)
      = l.foldl (fun acc wc => wc.2.foldl (fun u' c => insert c u') acc)
          (a.2.foldl (fun u' c => insert c u') ∅) := rfl
  rw [h1, cellsOf_foldl, foldl_insert_eq_union, Finset.empty_union]

theorem cellsOf_append_single (l : List Cand) (wc : Cand) :
    cellsOf (l ++ [wc]) = cellsOf l ∪ wc.2.toFinset := by
  simp only [cellsOf, List.foldl_append, List.foldl_cons, List.foldl_nil]
  rw [show (l.foldl (fun acc wc => wc.2.foldl (fun u' c => insert c u') acc) ∅) = cellsOf l
      from rfl]
  rw [foldl_insert_eq_union]

theorem mem_cellsOf {c : Cell} {l : List Cand} :
    c ∈ cellsOf l ↔ ∃ wc ∈ l, c ∈ wc.2 := by
  induction l with
  | nil => simp [cellsOf]
  | cons a l ih => simp [cellsOf_cons, ih]

theorem canPlaceWord_iff (used : Finset Cell) (coords : List Cell) :
    canPlaceWord used coords = true ↔ ∀ c ∈ coords, c ∉ used := by
  simp [canPlaceWord]

theorem placeWord_current (s : SolveState) (wc : Cand) :
    (placeWord s wc).current = s.current ++ [wc] := rfl

theorem placeWord_used (s : SolveState) (wc : Cand) :
    (placeWord s wc).used = s.used ∪ wc.2.toFinset := by
  simp [placeWord, foldl_insert_eq_union]

theorem removeWord_of_concat (s : SolveState) (l : List Cand) (wc : Cand)
    (h : s.current = l ++ [wc]) :
    removeWord s = { s with current := l, used := s.used \ wc.2.toFinset } := by
  simp [removeWord, h, List.getLast?_concat, List.dropLast_concat, foldl_erase_eq_sdiff]

theorem entryState_fields (s : SolveState) :
    (entryState s).current = s.current ∧ (entryState s).used = s.used ∧
      (entryState s).best = s.best ∧ (entryState s).bestCoverage = s.bestCoverage ∧
      (entryState s).progressLog = s.progressLog ∧
      (entryState s).attempts = s.attempts + 1 := by
  simp [entryState]

theorem pollState_fields (s : SolveState) :
    (pollState s).current = s.current ∧ (pollState s).used = s.used ∧
      (pollState s).attempts = s.attempts := by
  unfold pollState
  by_cases h : s.attempts % 1000 = 0 <;> by_cases h2 : s.bestCoverage < s.used.card <;>
    simp [h, h2]

theorem listMax_append_single (l : List ℕ) (c : ℕ) :
    listMax (l ++ [c]) = max (listMax l) c := by
  induction l with
  | nil => simp [listMax]
  | cons a l ih =>
    simp only [listMax, List.foldr_cons, List.cons_append] at *
    rw [ih]
    exact (Nat.max_assoc a _ c).symm

theorem le_listMax_of_mem {x : ℕ} {l : List ℕ} (h : x ∈ l) : x ≤ listMax l := by
  induction l with
  | nil => cases h
  | cons a l ih =>
    rcases List.mem_cons.mp h with rfl | h'
    · exact Nat.le_max_left _ _
    · exact Nat.le_trans (ih h') (Nat.le_max_right _ _)

/-! ## The solver invariant -/

theorem SInv.entry {committed : List Cand} {s : SolveState} (h : SInv committed s) :
    SInv committed (entryState s) := by
  obtain ⟨h1, h2, h3, h4, h5, _⟩ := entryState_fields s
  exact ⟨h1 ▸ h2 ▸ h.usedEq, h1 ▸ h.pre, h1 ▸ h.disj, h4 ▸ h5 ▸ h.bestCov,
    h3 ▸ h4 ▸ h.bestCase⟩

theorem pollState_eq_update (s : SolveState) (hm : s.attempts % 1000 = 0)
    (hb : s.bestCoverage < s.used.card) :
    pollState s = { s with
      bestCoverage := s.used.card
      best := s.current
      progressLog := s.progressLog ++ [(s.attempts, s.current.length, s.used.card)] } := by
  simp [pollState, hm, hb]

theorem pollState_eq_nonupdate (s : SolveState) (hm : s.attempts % 1000 = 0)
    (hb : ¬ s.bestCoverage < s.used.card) :
    pollState s
      = { s with progressLog := s.progressLog ++ [(s.attempts, s.current.length, s.used.card)] } := by
  simp [pollState, hm, hb]

theorem pollState_eq_skip (s : SolveState) (hm : ¬ s.attempts % 1000 = 0) :
    pollState s = s := by
  simp [pollState, hm]

theorem covs_append_single (log : List (ℕ × ℕ × ℕ)) (a b c : ℕ) :
    covs (log ++ [(a, b, c)]) = covs log ++ [c] := by
  simp [covs]

theorem SInv.poll {committed : List Cand} {s : SolveState} (h : SInv committed s) :
    SInv committed (pollState s) := by
  have hcov := h.bestCov
  have h1 : (cellsOf committed).card ≤ s.bestCoverage := by
    rw [hcov]; exact Nat.le_max_left _ _
  have h2 : listMax (covs s.progressLog) ≤ s.bestCoverage := by
    rw [hcov]; exact Nat.le_max_right _ _
  by_cases hm : s.attempts % 1000 = 0
  · by_cases hb : s.bestCoverage < s.used.card
    · rw [pollState_eq_update s hm hb]
      refine ⟨h.usedEq, h.pre, h.disj, ?_, ?_⟩
      · simp only [covs_append_single, listMax_append_single]
        omega
      · exact Or.inr ⟨by rw [h.usedEq], Nat.lt_of_le_of_lt h1 hb, h.pre, h.disj⟩
    · rw [pollState_eq_nonupdate s hm hb]
      refine ⟨h.usedEq, h.pre, h.disj, ?_, h.bestCase⟩
      simp only [covs_append_single, listMax_append_single]
      have hle : s.used.card ≤ s.bestCoverage := Nat.le_of_not_lt hb
      omega
  · rw [pollState_eq_skip s hm]
    exact h

theorem SInv.place {committed : List Cand} {s : SolveState} (h : SInv committed s)
    (wc : Cand) (hcan : canPlaceWord s.used wc.2 = true) :
    SInv committed (placeWord s wc) := by
  have hfresh : ∀ c ∈ wc.2, c ∉ s.used := (canPlaceWord_iff _ _).mp hcan
  refine ⟨?_, ?_, ?_, h.bestCov, h.bestCase⟩
  · rw [placeWord_used, placeWord_current, cellsOf_append_single, h.usedEq]
  · rw [placeWord_current]
    exact h.pre.trans (List.prefix_append _ _)
  · intro hd
    rw [placeWord_current]
    rw [List.pairwise_append]
    refine ⟨h.disj hd, List.pairwise_singleton _ _, ?_⟩
    intro a ha b hb
    rcases List.mem_singleton.mp hb with rfl
    intro c hca hcb
    exact hfresh c hcb (h.usedEq ▸ mem_cellsOf.mpr ⟨a, ha, hca⟩)

theorem SInv.unplace {committed : List Cand} {s s' : SolveState} (h : SInv committed s)
    (h' : SInv committed s') (wc : Cand) (hcan : canPlaceWord s.used wc.2 = true)
    (hcur : s'.current = s.current ++ [wc]) (hused : s'.used = s.used ∪ wc.2.toFinset) :
    SInv committed (removeWord s') := by
  have hfresh : ∀ c ∈ wc.2, c ∉ s.used := (canPlaceWord_iff _ _).mp hcan
  rw [removeWord_of_concat s' s.current wc hcur]
  have husd : s'.used \ wc.2.toFinset = s.used := by
    rw [hused]
    exact union_sdiff_cancel_of_fresh _ _ (by intro c hc; exact hfresh c (List.mem_toFinset.mp hc))
  exact ⟨by simpa [husd] using h.usedEq, by simpa using h.pre, by simpa using h.disj,
    by simpa using h'.bestCov, by simpa using h'.bestCase⟩

/-! ## Frame, invariant and success lemmas for the backtracking search -/

theorem solveLoop_frame (f : List Cand → SolveState → Bool × SolveState)
    (hf : ∀ rs t, (f rs t).1 = false →
      (f rs t).2.current = t.current ∧ (f rs t).2.used = t.used) :
    ∀ rs s, (solveLoop f rs s).1 = false →
      (solveLoop f rs s).2.current = s.current ∧ (solveLoop f rs s).2.used = s.used := by
  intro rs
  induction rs with
  | nil => intro s h; simp [solveLoop]
  | cons wc rest ih =>
    intro s h
    by_cases hcan : canPlaceWord s.used wc.2 = true
    · rcases hres : f rest (placeWord s wc) with ⟨b, s'⟩
      cases b
      · have hframe := hf rest (placeWord s wc)
        rw [hres] at hframe
        have hframe' := hframe rfl
        simp only [solveLoop, hcan, if_true, hres] at h ⊢
        have hrm : (removeWord s').current = s.current ∧ (removeWord s').used = s.used := by
          have hcur : s'.current = s.current ++ [wc] := by
            rw [hframe'.1, placeWord_current]
          have hused : s'.used = s.used ∪ wc.2.toFinset := by
            rw [hframe'.2, placeWord_used]
          rw [removeWord_of_concat s' s.current wc hcur]
          refine ⟨rfl, ?_⟩
          show s'.used \ wc.2.toFinset = s.used
          rw [hused]
          exact union_sdiff_cancel_of_fresh _ _
            (fun c hc => (canPlaceWord_iff _ _).mp hcan c (List.mem_toFinset.mp hc))
        have := ih (removeWord s') h
        rw [this.1, this.2, hrm.1, hrm.2]
        exact ⟨rfl, rfl⟩
      · simp [solveLoop, hcan, hres] at h
    · simp only [solveLoop, hcan, if_false] at h ⊢
      exact ih s h

theorem solveRec_frame (total maxAttempts : ℕ) (cancel : ℕ → Bool) :
    ∀ fuel rest s, (solveRec total maxAttempts cancel fuel rest s).1 = false →
      (solveRec total maxAttempts cancel fuel rest s).2.current = s.current ∧
        (solveRec total maxAttempts cancel fuel rest s).2.used = s.used := by
  intro fuel
  induction fuel with
  | zero => intro rest s h; exact ⟨rfl, rfl⟩
  | succ fuel ih =>
    intro rest s h
    have hpe : (pollState (entryState s)).current = s.current ∧
        (pollState (entryState s)).used = s.used := by
      obtain ⟨p1, p2, _⟩ := pollState_fields (entryState s)
      obtain ⟨e1, e2, _⟩ := entryState_fields s
      exact ⟨p1.trans e1, p2.trans e2⟩
    by_cases hc1 : (pollState (entryState s)).attempts % 1000 = 0 ∧
        cancel (pollState (entryState s)).attempts = true
    · simpa only [solveRec, if_pos hc1] using hpe
    · by_cases hc2 : (pollState (entryState s)).used.card = total
      · simp [solveRec, hc1, hc2] at h
      · by_cases hc3 : maxAttempts < (pollState (entryState s)).attempts
        · simpa only [solveRec, if_neg hc1, if_neg hc2, if_pos hc3] using hpe
        · simp only [solveRec, if_neg hc1, if_neg hc2, if_neg hc3] at h ⊢
          have := solveLoop_frame _ (fun rs t => ih rs t) rest (pollState (entryState s)) h
          exact ⟨this.1.trans hpe.1, this.2.trans hpe.2⟩

theorem solveLoop_inv (committed : List Cand)
    (f : List Cand → SolveState → Bool × SolveState)
    (hf : ∀ rs t, (f rs t).1 = false →
      (f rs t).2.current = t.current ∧ (f rs t).2.used = t.used)
    (hfi : ∀ rs t, SInv committed t → SInv committed (f rs t).2) :
    ∀ rs s, SInv committed s → SInv committed (solveLoop f rs s).2 := by
  intro rs
  induction rs with
  | nil => intro s h; simpa [solveLoop] using h
  | cons wc rest ih =>
    intro s h
    by_cases hcan : canPlaceWord s.used wc.2 = true
    · rcases hres : f rest (placeWord s wc) with ⟨b, s'⟩
      have hinv' : SInv committed s' := by
        have := hfi rest (placeWord s wc) (h.place wc hcan)
        rwa [hres] at this
      cases b
      · have hframe := hf rest (placeWord s wc)
        rw [hres] at hframe
        have hframe' := hframe rfl
        simp only [solveLoop, hcan, if_true, hres]
        refine ih (removeWord s') ?_
        exact h.unplace hinv' wc hcan
          (by rw [hframe'.1, placeWord_current])
          (by rw [hframe'.2, placeWord_used])
      · simpa only [solveLoop, hcan, if_true, hres] using hinv'
    · simp only [solveLoop, hcan, if_false]
      exact ih s h

theorem solveRec_inv (committed : List Cand) (total maxAttempts : ℕ) (cancel : ℕ → Bool) :
    ∀ fuel rest s, SInv committed s →
      SInv committed (solveRec total maxAttempts cancel fuel rest s).2 := by
  intro fuel
  induction fuel with
  | zero => intro rest s h; exact h
  | succ fuel ih =>
    intro rest s h
    have h2 : SInv committed (pollState (entryState s)) := h.entry.poll
    simp only [solveRec]
    split
    · exact h2
    · split
      · exact h2
      · split
        · exact h2
        · exact solveLoop_inv committed _
            (fun rs t => solveRec_frame total maxAttempts cancel fuel rs t)
            (fun rs t => ih rs t) rest (pollState (entryState s)) h2

theorem solveRec_zero_state (total maxAttempts : ℕ) (cancel : ℕ → Bool)
    (rest : List Cand) (s : SolveState) :
    solveRec total maxAttempts cancel 0 rest s = (false, s) := rfl

theorem solveLoop_success (total : ℕ)
    (f : List Cand → SolveState → Bool × SolveState)
    (hf : ∀ rs t, (f rs t).1 = true → (f rs t).2.used.card = total) :
    ∀ rs s, (solveLoop f rs s).1 = true → (solveLoop f rs s).2.used.card = total := by
  intro rs
  induction rs with
  | nil => intro s h; simp [solveLoop] at h
  | cons wc rest ih =>
    intro s h
    by_cases hcan : canPlaceWord s.used wc.2 = true
    · rcases hres : f rest (placeWord s wc) with ⟨b, s'⟩
      cases b
      · simp only [solveLoop, hcan, if_true, hres] at h ⊢
        exact ih (removeWord s') h
      · simp only [solveLoop, hcan, if_true, hres] at h ⊢
        have := hf rest (placeWord s wc)
        rw [hres] at this
        exact this rfl
    · simp only [solveLoop, hcan, if_false] at h ⊢
      exact ih s h

theorem solveRec_success (total maxAttempts : ℕ) (cancel : ℕ → Bool) :
    ∀ fuel rest s, (solveRec total maxAttempts cancel fuel rest s).1 = true →
      (solveRec total maxAttempts cancel fuel rest s).2.used.card = total := by
  intro fuel
  induction fuel with
  | zero =>
    intro rest s h
    rw [solveRec_zero_state] at h
    simp at h
  | succ fuel ih =>
    intro rest s h
    by_cases hc1 : (pollState (entryState s)).attempts % 1000 = 0 ∧
        cancel (pollState (entryState s)).attempts = true
    · simp [solveRec, hc1] at h
    · by_cases hc2 : (pollState (entryState s)).used.card = total
      · simpa only [solveRec, if_neg hc1, if_pos hc2] using hc2
      · by_cases hc3 : maxAttempts < (pollState (entryState s)).attempts
        · simp [solveRec, hc1, hc2, hc3] at h
        · simp only [solveRec, if_neg hc1, if_neg hc2, if_neg hc3] at h ⊢
          exact solveLoop_success total _ (fun rs t => ih rs t) rest _ h

theorem SInv_init (existingWords : List Cand) :
    SInv existingWords
      { attempts := 0, used := cellsOf existingWords, current := existingWords, best := [],
        bestCoverage := (cellsOf existingWords).card, progressLog := [],
        everCoverage := (cellsOf existingWords).card } := by
  refine ⟨rfl, List.prefix_refl _, id, ?_, Or.inl ⟨rfl, rfl⟩⟩
  simp [covs, listMax]

theorem solvePuzzleFull_inv (rows cols : ℕ) (allWords existingWords : List Cand)
    (cancel : ℕ → Bool) (maxAttempts : ℕ) :
    SInv existingWords
      (solvePuzzleFull rows cols allWords existingWords cancel maxAttempts).2 :=
  solveRec_inv existingWords (rows * cols) maxAttempts cancel _ _ _ (SInv_init existingWords)

theorem solvePuzzleFull_success (rows cols : ℕ) (allWords existingWords : List Cand)
    (cancel : ℕ → Bool) (maxAttempts : ℕ)
    (h : (solvePuzzleFull rows cols allWords existingWords cancel maxAttempts).1 = true) :
    (solvePuzzleFull rows cols allWords existingWords cancel maxAttempts).2.used.card
      = rows * cols :=
  solveRec_success (rows * cols) maxAttempts cancel _ _ _ h

/-! ## Claims on the tiling solver -/

/-- C1 (amended): if the recursion finds a placement covering every grid
cell it is returned (and its occupied set has full cardinality);
otherwise the recorded best placement is returned when nonempty, else
the committed list when nonempty, else the null sentinel.  The best
placement is snapshotted only at the per-1000-attempt polls:
`bestCoverage` equals the maximum of the committed coverage and the
coverages reported at polls, and a nonempty best placement covers
exactly `bestCoverage` cells, strictly more than the committed words —
coverage improvements between polls are not tracked. -/
theorem solvePuzzle_return_semantics (rows cols : ℕ) (allWords existingWords : List Cand)
    (cancel : ℕ → Bool) (maxAttempts : ℕ) :
    ((solvePuzzleFull rows cols allWords existingWords cancel maxAttempts).1 = true →
      solvePuzzle rows cols allWords existingWords cancel maxAttempts
        = some (solvePuzzleFull rows cols allWords existingWords cancel maxAttempts).2.current ∧
      (solvePuzzleFull rows cols allWords existingWords cancel maxAttempts).2.used.card
        = rows * cols) ∧
    ((solvePuzzleFull rows cols allWords existingWords cancel maxAttempts).2.bestCoverage
      = max (cellsOf existingWords).card
          (listMax (covs
            (solvePuzzleFull rows cols allWords existingWords cancel maxAttempts).2.progressLog))) ∧
    ((solvePuzzleFull rows cols allWords existingWords cancel maxAttempts).2.best ≠ [] →
      (cellsOf
          (solvePuzzleFull rows cols allWords existingWords cancel maxAttempts).2.best).card
        = (solvePuzzleFull rows cols allWords existingWords cancel maxAttempts).2.bestCoverage ∧
      (cellsOf existingWords).card
        < (solvePuzzleFull rows cols allWords existingWords cancel maxAttempts).2.bestCoverage) ∧
    ((solvePuzzleFull rows cols allWords existingWords cancel maxAttempts).1 = false →
      solvePuzzle rows cols allWords existingWords cancel maxAttempts
        = if 0 < (solvePuzzleFull rows cols allWords existingWords cancel
              maxAttempts).2.best.length then
            some (solvePuzzleFull rows cols allWords existingWords cancel maxAttempts).2.best
          else if 0 < existingWords.length then some existingWords else none) := by
  have hinv := solvePuzzleFull_inv rows cols allWords existingWords cancel maxAttempts
  refine ⟨?_, hinv.bestCov, ?_, ?_⟩
  · intro h
    exact ⟨by simp [solvePuzzle, h],
      solvePuzzleFull_success rows cols allWords existingWords cancel maxAttempts h⟩
  · intro hne
    rcases hinv.bestCase with ⟨h1, _⟩ | ⟨h1, h2, _, _⟩
    · exact absurd h1 hne
    · exact ⟨h1, h2⟩
  · intro h
    simp [solvePuzzle, h]

set_option maxRecDepth 1000000 in
/-- C1 counterexample: on `shortPool` over a 1-by-2 grid the search
reaches coverage 1 (recorded in the observation field `everCoverage`),
strictly above the empty committed list's coverage 0, yet `solvePuzzle`
returns the null sentinel: the maximum coverage ever reached is not what
is returned, because `best` is only sampled at per-1000-attempt polls
and this search ends before attempt 1000. -/
theorem solvePuzzle_unsampled_best_dropped :
    (solvePuzzleFull 1 2 shortPool [] (fun _ => false) 100000).2.everCoverage = 1 ∧
    (cellsOf ([] : List Cand)).card = 0 ∧
    solvePuzzle 1 2 shortPool [] (fun _ => false) 100000 = none := by
  exact ⟨by decide, by decide, by decide⟩

/-- C3: assuming the committed words are pairwise cell-disjoint, every
placement `solvePuzzle` returns is pairwise cell-disjoint and contains
the committed list unchanged as a positional prefix. -/
theorem solvePuzzle_disjoint_and_prefix (rows cols : ℕ) (allWords existingWords : List Cand)
    (cancel : ℕ → Bool) (maxAttempts : ℕ) (R : List Cand)
    (hdisj : existingWords.Pairwise disjCand)
    (hres : solvePuzzle rows cols allWords existingWords cancel maxAttempts = some R) :
    R.Pairwise disjCand ∧ existingWords <+: R := by
  have hinv := solvePuzzleFull_inv rows cols allWords existingWords cancel maxAttempts
  by_cases h1 : (solvePuzzleFull rows cols allWords existingWords cancel maxAttempts).1 = true
  · have : R = (solvePuzzleFull rows cols allWords existingWords cancel maxAttempts).2.current := by
      simp [solvePuzzle, h1] at hres
      exact hres.symm
    subst this
    exact ⟨hinv.disj hdisj, hinv.pre⟩
  · replace h1 : (solvePuzzleFull rows cols allWords existingWords cancel maxAttempts).1 = false :=
      Bool.eq_false_iff.mpr h1
    by_cases h2 :
        0 < (solvePuzzleFull rows cols allWords existingWords cancel maxAttempts).2.best.length
    · have hR : R = (solvePuzzleFull rows cols allWords existingWords cancel maxAttempts).2.best := by
        simp [solvePuzzle, h1, h2] at hres
        exact hres.symm
      subst hR
      rcases hinv.bestCase with ⟨hb, _⟩ | ⟨_, _, hpre, hdj⟩
      · rw [hb] at h2; simp at h2
      · exact ⟨hdj hdisj, hpre⟩
    · by_cases h3 : 0 < existingWords.length
      · have hR : R = existingWords := by
          simp [solvePuzzle, h1, h2, h3] at hres
          exact hres.symm
        subst hR
        exact ⟨hdisj, List.prefix_refl _⟩
      · simp [solvePuzzle, h1, h2, h3] at hres

/-- C3 witness: a committed single word on a 1-by-1 grid is returned
unchanged, pairwise disjoint with itself as a prefix. -/
theorem solvePuzzle_disjoint_and_prefix_witness :
    ([("X", [((0 : ℤ), (0 : ℤ))])].Pairwise disjCand ∧
      solvePuzzle 1 1 [] [("X", [((0 : ℤ), (0 : ℤ))])] (fun _ => false) 100000
        = some [("X", [((0 : ℤ), (0 : ℤ))])]) ∧
    ([("X", [((0 : ℤ), (0 : ℤ))])].Pairwise disjCand ∧
      [("X", [((0 : ℤ), (0 : ℤ))])] <+: [("X", [((0 : ℤ), (0 : ℤ))])]) :=
  ⟨⟨by simp [List.pairwise_singleton], by decide⟩,
    solvePuzzle_disjoint_and_prefix 1 1 [] [("X", [((0 : ℤ), (0 : ℤ))])] (fun _ => false)
      100000 [("X", [((0 : ℤ), (0 : ℤ))])] (by simp [List.pairwise_singleton]) (by decide)⟩

/-- C4 (amended): the coverage values passed to successive progress
callbacks are the current (not best) coverage at each poll and may
decrease after backtracking; what is monotone is the recorded best:
every reported coverage is at most the final `bestCoverage`. -/
theorem solvePuzzle_reported_coverage_le_best (rows cols : ℕ)
    (allWords existingWords : List Cand) (cancel : ℕ → Bool) (maxAttempts : ℕ) :
    listMax (covs
        (solvePuzzleFull rows cols allWords existingWords cancel maxAttempts).2.progressLog)
      ≤ (solvePuzzleFull rows cols allWords existingWords cancel maxAttempts).2.bestCoverage := by
  have hinv := solvePuzzleFull_inv rows cols allWords existingWords cancel maxAttempts
  rw [hinv.bestCov]
  exact Nat.le_max_right _ _

set_option maxRecDepth 1000000 in
/-- C4 counterexample: on `decreasingPool` over a 1-by-2 grid the polls
at attempts 1000 and 2000 report coverages 1 and then 0: the sequence of
coverage values passed to successive progress callbacks is not
non-decreasing. -/
theorem solvePuzzle_progress_coverage_decreases :
    covs (solvePuzzleFull 1 2 decreasingPool [] (fun _ => false) 100000).2.progressLog = [1, 0]
      ∧ ¬ List.Chain' (fun a b : ℕ => a ≤ b) [1, 0] := by
  exact ⟨by decide, by simp [List.chain'_cons]⟩

/-- C5 (amended): a cancel hook returning true at a per-1000-attempt poll
makes only the current recursion frame return failure at once, leaving
the placement and occupied set as at that frame's entry; enclosing
frames treat this as an ordinary failed branch and continue the search,
so a complete success discovered after the cancelled poll can still be
returned. -/
theorem solveRec_cancel_aborts_frame (total maxAttempts : ℕ) (cancel : ℕ → Bool)
    (fuel : ℕ) (rest : List Cand) (s : SolveState)
    (hm : (s.attempts + 1) % 1000 = 0) (hc : cancel (s.attempts + 1) = true) :
    (solveRec total maxAttempts cancel (fuel + 1) rest s).1 = false ∧
    (solveRec total maxAttempts cancel (fuel + 1) rest s).2.current = s.current ∧
    (solveRec total maxAttempts cancel (fuel + 1) rest s).2.used = s.used := by
  obtain ⟨e1, e2, _, _, _, e6⟩ := entryState_fields s
  obtain ⟨p1, p2, p3⟩ := pollState_fields (entryState s)
  have hatt : (pollState (entryState s)).attempts = s.attempts + 1 := by rw [p3, e6]
  have hcond : (pollState (entryState s)).attempts % 1000 = 0 ∧
      cancel (pollState (entryState s)).attempts = true := by
    rw [hatt]; exact ⟨hm, hc⟩
  have hstep : solveRec total maxAttempts cancel (fuel + 1) rest s
      = (false, pollState (entryState s)) := by
    simp only [solveRec, if_pos hcond]
  rw [hstep]
  exact ⟨rfl, p1.trans e1, p2.trans e2⟩

/-- C5 witness: a frame at 999 prior attempts with a constantly-true
cancel hook fails immediately, with its placement and occupied set
untouched. -/
theorem solveRec_cancel_aborts_frame_witness :
    ((pollReadyState.attempts + 1) % 1000 = 0 ∧
      (fun _ : ℕ => true) (pollReadyState.attempts + 1) = true) ∧
    ((solveRec 2 100000 (fun _ => true) 1 [] pollReadyState).1 = false ∧
      (solveRec 2 100000 (fun _ => true) 1 [] pollReadyState).2.current
        = pollReadyState.current ∧
      (solveRec 2 100000 (fun _ => true) 1 [] pollReadyState).2.used = pollReadyState.used) :=
  ⟨⟨by decide, rfl⟩,
    solveRec_cancel_aborts_frame 2 100000 (fun _ => true) 0 [] pollReadyState
      (by decide) rfl⟩

set_option maxRecDepth 1000000 in
/-- C5 counterexample: on `lateSuccessPool` over a 1-by-2 grid with a
constantly-true cancel hook, the poll at attempt 1000 observes the
cancel (the progress log records that poll), yet the search goes on in
the enclosing frames and returns a complete-success placement discovered
at attempt 1023: a result is reported after a cancel other than via the
best-so-far path. -/
theorem solvePuzzle_success_after_cancel :
    (solvePuzzleFull 1 2 lateSuccessPool [] (fun _ => true) 100000).1 = true ∧
    (solvePuzzleFull 1 2 lateSuccessPool [] (fun _ => true) 100000).2.attempts = 1023 ∧
    covs (solvePuzzleFull 1 2 lateSuccessPool [] (fun _ => true) 100000).2.progressLog = [9] ∧
    solvePuzzle 1 2 lateSuccessPool [] (fun _ => true) 100000
      = some [("Z", [((0 : ℤ), (0 : ℤ)), ((0 : ℤ), (1 : ℤ))])] := by
  decide

/-! ## Claims on the dictionary loader and the trie -/

/-- C9 (amended): dictionary construction maps every raw line by trimming
and uppercasing it and keeps exactly the survivors of the length test: a
word is in the built set iff some input line trims and uppercases to it
and it has length at least 4.  No character filter is applied, so words
with characters outside A-Z are kept; duplicate insertions leave the set
unchanged (the right side does not depend on multiplicity). -/
theorem loadWordList_mem_iff (lines : List String) (w : String) :
    w ∈ loadWordList lines
      ↔ ∃ l ∈ lines, upperString (trimString l) = w ∧ 4 ≤ w.length := by
  suffices h : ∀ acc : Finset String,
      w ∈ lines.foldl (fun wordSet line =>
        if 4 ≤ (upperString (trimString line)).length then
          insert (upperString (trimString line)) wordSet
        else wordSet) acc
      ↔ w ∈ acc ∨ ∃ l ∈ lines, upperString (trimString l) = w ∧ 4 ≤ w.length by
    simpa [loadWordList] using h ∅
  intro acc
  induction lines generalizing acc with
  | nil => simp
  | cons a ls ih =>
    simp only [List.foldl_cons]
    rw [ih]
    by_cases h : 4 ≤ (upperString (trimString a)).length
    · rw [if_pos h]
      simp only [Finset.mem_insert, List.mem_cons]
      constructor
      · rintro ((rfl | hacc) | ⟨l, hl, hw, hlen⟩)
        · exact Or.inr ⟨a, Or.inl rfl, rfl, h⟩
        · exact Or.inl hacc
        · exact Or.inr ⟨l, Or.inr hl, hw, hlen⟩
      · rintro (hacc | ⟨l, (rfl | hl), hw, hlen⟩)
        · exact Or.inl (Or.inr hacc)
        · exact Or.inl (Or.inl hw.symm)
        · exact Or.inr ⟨l, hl, hw, hlen⟩
    · rw [if_neg h]
      simp only [List.mem_cons]
      constructor
      · rintro (hacc | ⟨l, hl, hw, hlen⟩)
        · exact Or.inl hacc
        · exact Or.inr ⟨l, Or.inr hl, hw, hlen⟩
      · rintro (hacc | ⟨l, (rfl | hl), hw, hlen⟩)
        · exact Or.inl hacc
        · exact absurd (by rw [hw]; exact hlen) h
        · exact Or.inr ⟨l, hl, hw, hlen⟩

/-- C9 counterexample: the line `"ab-c"` trims and uppercases to
`"AB-C"`, which has length 4 and the non-A-Z character `'-'`, and is kept
in the built dictionary: the claimed non-A-Z filter does not exist. -/
theorem loadWordList_keeps_nonalpha :
    "AB-C" ∈ loadWordList ["ab-c"] ∧ '-' ∈ "AB-C".data ∧ ¬ ('A' ≤ '-' ∧ '-' ≤ 'Z') := by
  exact ⟨by decide, by decide, by decide⟩

/-- C8 (amended): a dictionary built from empty input has an empty word
set (membership is false for every word) and its trie answers false to
`hasPrefix` for every nonempty prefix; `hasPrefix("")` however returns
true, since the letter loop is vacuous.  All operations are total. -/
theorem empty_dictionary_queries (w p : String) (hp : p ≠ "") :
    w ∉ loadWordList [] ∧ hasPref (buildPrefixTree []) p = false := by
  constructor
  · simp [loadWordList]
  · have hd : p.data ≠ [] := by
      intro hnil
      apply hp
      cases p with
      | mk d =>
        simp only [String.data] at hnil
        rw [hnil]
    rcases hx : p.data with _ | ⟨c, cs⟩
    · exact absurd hx hd
    · simp [hasPref, hx, hasPrefAux, buildPrefixTree, Trie.child, Trie.children]

/-- C8 witness: the empty dictionary rejects the word `"DOG"` and the
nonempty prefix `"D"`. -/
theorem empty_dictionary_queries_witness :
    ("D" : String) ≠ "" ∧
    ("DOG" ∉ loadWordList [] ∧ hasPref (buildPrefixTree []) "D" = false) :=
  ⟨by decide, empty_dictionary_queries "DOG" "D" (by decide)⟩

/-- C8 counterexample: on the dictionary built from empty input,
`hasPrefix` applied to the empty prefix returns true, not false: the
letter-by-letter loop over an empty prefix falls through to `return
true`. -/
theorem hasPref_empty_on_empty_prefix :
    hasPref (buildPrefixTree []) "" = true := by
  decide

/-! ## Claims on the enumerator: uppercase reading -/

theorem toNat_ofNat_valid {m : ℕ} (h : m.isValidChar) : (Char.ofNat m).toNat = m := by
  rw [Char.ofNat, dif_pos h]
  rfl

theorem toUpper_toUpper (c : Char) : c.toUpper.toUpper = c.toUpper := by
  by_cases h : c.toNat ≥ 97 ∧ c.toNat ≤ 122
  · have h1 : c.toUpper = Char.ofNat (c.toNat - 32) := by
      simp only [Char.toUpper]
      rw [if_pos h]
    have hv : Nat.isValidChar (c.toNat - 32) := Or.inl (by omega)
    have h2 : (Char.ofNat (c.toNat - 32)).toNat = c.toNat - 32 := toNat_ofNat_valid hv
    rw [h1]
    simp only [Char.toUpper]
    rw [if_neg (by rw [h2]; omega)]
  · have h1 : c.toUpper = c := by
      simp only [Char.toUpper]
      rw [if_neg h]
    rw [h1, h1]

theorem gridLetter_map_toUpper (grid : List (List Char)) :
    gridLetter (grid.map (fun row => row.map Char.toUpper)) = gridLetter grid := by
  have hin : ∀ (row : List Char) (m : ℕ),
      ((row.map Char.toUpper).getD m 'A').toUpper = (row.getD m 'A').toUpper := by
    intro row m
    rcases h : row[m]? with _ | x
    · simp [List.getD_eq_getElem?_getD, h]
    · simp [List.getD_eq_getElem?_getD, h, toUpper_toUpper]
  have hout : ∀ n : ℕ, (grid.map (fun row => row.map Char.toUpper)).getD n []
      = (grid.getD n []).map Char.toUpper := by
    intro n
    rcases h : grid[n]? with _ | row
    · simp [List.getD_eq_getElem?_getD, h]
    · simp [List.getD_eq_getElem?_getD, h]
  funext r c
  unfold gridLetter
  rw [hout r.toNat, hin (grid.getD r.toNat []) c.toNat]

/-- C10: `findWordsDFS` reads every grid letter through `toUpperCase`, so
its result on any grid equals its result on the cell-wise uppercased
grid, for every start cell, occupied set, blacklist and length bounds. -/
theorem findWordsDFS_toUpper_invariant (grid : List (List Char)) (ws : List String)
    (startRow startCol : ℤ) (usedPositions : Finset Cell)
    (blacklistedWords : List String) (minLength maxLength : ℕ) :
    findWordsDFS ⟨grid.map (fun row => row.map Char.toUpper), ws⟩ startRow startCol
        usedPositions blacklistedWords minLength maxLength
      = findWordsDFS ⟨grid, ws⟩ startRow startCol usedPositions blacklistedWords
          minLength maxLength := by
  have hrows : (⟨grid.map (fun row => row.map Char.toUpper), ws⟩ : Solver).rows
      = (⟨grid, ws⟩ : Solver).rows := by
    simp [Solver.rows]
  have hcols : (⟨grid.map (fun row => row.map Char.toUpper), ws⟩ : Solver).cols
      = (⟨grid, ws⟩ : Solver).cols := by
    cases grid <;> simp [Solver.cols]
  have hletter : gridLetter (grid.map (fun row => row.map Char.toUpper)) = gridLetter grid :=
    gridLetter_map_toUpper grid
  unfold findWordsDFS findWordsDFSCore
  rw [show (⟨grid.map (fun row => row.map Char.toUpper), ws⟩ : Solver).grid
      = grid.map (fun row => row.map Char.toUpper) from rfl]
  rw [show (⟨grid, ws⟩ : Solver).grid = grid from rfl, hrows, hcols, hletter]
  rfl

/-! ## Lemmas on the enumerator's sort and map updates -/

theorem mem_insertByLen (x z : String × List Cell) :
    ∀ acc, z ∈ insertByLen x acc ↔ z = x ∨ z ∈ acc := by
  intro acc
  induction acc with
  | nil => simp [insertByLen]
  | cons y ys ih =>
    unfold insertByLen
    by_cases h : x.1.length ≤ y.1.length
    · rw [if_pos h]
      simp only [List.mem_cons, ih]
      tauto
    · rw [if_neg h]
      simp [List.mem_cons]

theorem insertByLen_perm (x : String × List Cell) :
    ∀ acc, List.Perm (insertByLen x acc) (x :: acc) := by
  intro acc
  induction acc with
  | nil => simp [insertByLen]
  | cons y ys ih =>
    unfold insertByLen
    by_cases h : x.1.length ≤ y.1.length
    · rw [if_pos h]
      exact (List.Perm.cons y ih).trans (List.Perm.swap x y ys)
    · rw [if_neg h]

theorem sortByLenDesc_perm (l : List (String × List Cell)) :
    List.Perm (sortByLenDesc l) l := by
  suffices h : ∀ acc, List.Perm (l.foldl (fun acc x => insertByLen x acc) acc) (acc ++ l) by
    simpa [sortByLenDesc] using h []
  induction l with
  | nil => intro acc; simp
  | cons x xs ih =>
    intro acc
    simp only [List.foldl_cons]
    exact ((ih _).trans ((insertByLen_perm x acc).append_right xs)).trans
      List.perm_middle.symm

theorem insertByLen_pairwise (R : (String × List Cell) → (String × List Cell) → Prop)
    (x : String × List Cell) :
    ∀ acc, acc.Pairwise (fun a b => b.1.length < a.1.length ∨
        (a.1.length = b.1.length ∧ R a b)) →
      (∀ y ∈ acc, R y x) →
      (insertByLen x acc).Pairwise (fun a b => b.1.length < a.1.length ∨
        (a.1.length = b.1.length ∧ R a b)) := by
  intro acc
  induction acc with
  | nil => intro _ _; simp [insertByLen]
  | cons y ys ih =>
    intro hp hr
    rw [List.pairwise_cons] at hp
    unfold insertByLen
    by_cases h : x.1.length ≤ y.1.length
    · rw [if_pos h]
      rw [List.pairwise_cons]
      constructor
      · intro z hz
        rcases (mem_insertByLen x z ys).mp hz with rfl | hz'
        · rcases Nat.lt_or_ge z.1.length y.1.length with hlt | hge
          · exact Or.inl hlt
          · exact Or.inr ⟨Nat.le_antisymm hge h, hr y (by simp)⟩
        · exact hp.1 z hz'
      · exact ih hp.2 (fun z hz => hr z (by simp [hz]))
    · rw [if_neg h]
      rw [List.pairwise_cons]
      constructor
      · intro z hz
        rcases List.mem_cons.mp hz with rfl | hz'
        · exact Or.inl (Nat.lt_of_not_le h)
        · rcases hp.1 z hz' with hlt | ⟨heq, _⟩
          · exact Or.inl (Nat.lt_trans hlt (Nat.lt_of_not_le h))
          · exact Or.inl (heq ▸ Nat.lt_of_not_le h)
      · exact List.pairwise_cons.mpr hp

theorem sortByLenDesc_pairwise_aux (R : (String × List Cell) → (String × List Cell) → Prop) :
    ∀ (l acc : List (String × List Cell)),
      acc.Pairwise (fun a b => b.1.length < a.1.length ∨
        (a.1.length = b.1.length ∧ R a b)) →
      (∀ y ∈ acc, ∀ x ∈ l, R y x) → l.Pairwise R →
      (l.foldl (fun acc x => insertByLen x acc) acc).Pairwise
        (fun a b => b.1.length < a.1.length ∨ (a.1.length = b.1.length ∧ R a b)) := by
  intro l
  induction l with
  | nil => intro acc hacc _ _; simpa using hacc
  | cons x xs ih =>
    intro acc hacc hcross hxl
    rw [List.pairwise_cons] at hxl
    simp only [List.foldl_cons]
    refine ih (insertByLen x acc)
      (insertByLen_pairwise R x acc hacc (fun y hy => hcross y hy x (by simp)))
      ?_ hxl.2
    intro y hy x' hx'
    rcases (mem_insertByLen x y acc).mp hy with rfl | hy'
    · exact hxl.1 x' hx'
    · exact hcross y hy' x' (by simp [hx'])

theorem sortByLenDesc_pairwise (R : (String × List Cell) → (String × List Cell) → Prop)
    (l : List (String × List Cell)) (hl : l.Pairwise R) :
    (sortByLenDesc l).Pairwise (fun a b => b.1.length < a.1.length ∨
      (a.1.length = b.1.length ∧ R a b)) :=
  sortByLenDesc_pairwise_aux R l [] (by simp) (by simp) hl

theorem updateUnique_of_not_mem (w : String) (p : List Cell) :
    ∀ um, w ∉ um.map Prod.fst → updateUnique w p um = um ++ [(w, p)] := by
  intro um
  induction um with
  | nil => intro _; rfl
  | cons e rest ih =>
    intro h
    simp only [List.map_cons, List.mem_cons, not_or] at h
    rcases e with ⟨w', p'⟩
    unfold updateUnique
    rw [if_neg (fun hh => h.1 hh.symm)]
    rw [ih h.2]
    rfl

theorem updateUnique_keep (w : String) (p p0 : List Cell) :
    ∀ um, (um.map Prod.fst).Nodup → (w, p0) ∈ um → ¬ p0.length < p.length →
      updateUnique w p um = um := by
  intro um
  induction um with
  | nil => intro _ h _; cases h
  | cons e rest ih =>
    intro hnd hmem hnot
    rcases e with ⟨w', p'⟩
    simp only [List.map_cons, List.nodup_cons] at hnd
    unfold updateUnique
    by_cases h : w' = w
    · rw [if_pos h]
      subst h
      have hp0 : p' = p0 := by
        rcases List.mem_cons.mp hmem with heq | hmem'
        · exact (Prod.mk.injEq _ _ _ _ ▸ heq.symm).2.symm ▸ rfl
        · exact absurd (List.mem_map_of_mem Prod.fst hmem') hnd.1
      rw [if_neg (hp0 ▸ hnot)]
    · rw [if_neg h]
      have hmem' : (w, p0) ∈ rest := by
        rcases List.mem_cons.mp hmem with heq | hmem'
        · cases heq; exact absurd rfl h
        · exact hmem'
      rw [ih hnd.2 hmem' hnot]

theorem idxOf_append_left (w : String) :
    ∀ l₁ l₂ : List String, w ∈ l₁ → idxOf w (l₁ ++ l₂) = idxOf w l₁ := by
  intro l₁
  induction l₁ with
  | nil => intro l₂ h; cases h
  | cons x xs ih =>
    intro l₂ h
    simp only [idxOf, List.append_eq]
    by_cases hx : x = w
    · rw [if_pos hx, if_pos hx]
    · rw [if_neg hx, if_neg hx]
      have hmem : w ∈ xs := by
        rcases List.mem_cons.mp h with rfl | h'
        · exact absurd rfl hx
        · exact h'
      rw [ih l₂ hmem]

theorem idxOf_lt_length (w : String) :
    ∀ l : List String, w ∈ l → idxOf w l < l.length := by
  intro l
  induction l with
  | nil => intro h; cases h
  | cons x xs ih =>
    intro h
    simp only [idxOf, List.append_eq]
    by_cases hx : x = w
    · rw [if_pos hx]; simp
    · rw [if_neg hx]
      have hmem : w ∈ xs := by
        rcases List.mem_cons.mp h with rfl | h'
        · exact absurd rfl hx
        · exact h'
      simpa [Nat.succ_lt_succ_iff] using ih hmem

theorem idxOf_append_self (w : String) :
    ∀ l : List String, w ∉ l → idxOf w (l ++ [w]) = l.length := by
  intro l
  induction l with
  | nil => intro _; simp [idxOf]
  | cons x xs ih =>
    intro h
    simp only [List.mem_cons, not_or] at h
    simp only [idxOf, List.append_eq]
    rw [if_neg (fun hh => h.1 hh.symm), ih h.2]
    rfl

theorem lookup_mem {l : List (String × List Cell)} {w : String} {p : List Cell}
    (h : l.lookup w = some p) : (w, p) ∈ l := by
  rcases List.lookup_eq_some_iff.mp h with ⟨l₁, l₂, rfl, _⟩
  simp

theorem UmEv_record (um ev : List (String × List Cell)) (w : String) (p : List Cell)
    (h : UmEv um ev)
    (hlen : ∀ p0, (w, p0) ∈ ev → ¬ p0.length < p.length) :
    UmEv (updateUnique w p um) (ev ++ [(w, p)]) := by
  obtain ⟨hnd, hlook, hiff, hpw⟩ := h
  have hkeys : (ev ++ [(w, p)]).map Prod.fst = ev.map Prod.fst ++ [w] := by simp
  by_cases hw : w ∈ um.map Prod.fst
  · obtain ⟨a, ha, ha1⟩ := List.mem_map.mp hw
    obtain ⟨w0, p0⟩ := a
    simp only at ha1
    subst ha1
    have hl0 : ev.lookup w0 = some p0 := hlook _ ha
    have hmem0 : (w0, p0) ∈ ev := lookup_mem hl0
    rw [updateUnique_keep w0 p p0 um hnd ha (hlen p0 hmem0)]
    have hwev : w0 ∈ ev.map Prod.fst := (hiff w0).mp hw
    refine ⟨hnd, ?_, ?_, ?_⟩
    · intro wp hwp
      rw [List.lookup_append, hlook wp hwp, Option.or_some]
    · intro w'
      rw [hiff w', hkeys]
      simp only [List.mem_append, List.mem_singleton]
      constructor
      · exact fun h' => Or.inl h'
      · rintro (h' | rfl)
        · exact h'
        · exact hwev
    · refine hpw.imp_of_mem ?_
      intro a b ha' hb' hab
      rw [hkeys, idxOf_append_left a.1 _ _ ((hiff a.1).mp (List.mem_map_of_mem Prod.fst ha')),
        idxOf_append_left b.1 _ _ ((hiff b.1).mp (List.mem_map_of_mem Prod.fst hb'))]
      exact hab
  · rw [updateUnique_of_not_mem w p um hw]
    have hwev : w ∉ ev.map Prod.fst := fun h' => hw ((hiff w).mpr h')
    have hlooknone : ev.lookup w = none := by
      rw [List.lookup_eq_none_iff]
      intro q hq
      simp only [bne_iff_ne, ne_eq]
      intro hh
      exact hwev (hh ▸ List.mem_map_of_mem Prod.fst hq)
    refine ⟨?_, ?_, ?_, ?_⟩
    · rw [List.map_append]
      refine List.Nodup.append hnd (by simp) ?_
      intro a haum hax
      simp only [List.map_cons, List.map_nil, List.mem_singleton] at hax
      exact hw (hax ▸ haum)
    · intro wp hwp
      rcases List.mem_append.mp hwp with hold | hnew
      · rw [List.lookup_append, hlook wp hold, Option.or_some]
      · simp only [List.mem_singleton] at hnew
        subst hnew
        rw [List.lookup_append, hlooknone]
        simp
    · intro w'
      simp only [List.map_append, List.mem_append, List.map_cons, List.map_nil,
        List.mem_singleton]
      exact or_congr_left (hiff w')
    · rw [List.pairwise_append]
      refine ⟨hpw.imp_of_mem ?_, List.pairwise_singleton _ _, ?_⟩
      · intro a b ha' hb' hab
        rw [hkeys,
          idxOf_append_left a.1 _ _ ((hiff a.1).mp (List.mem_map_of_mem Prod.fst ha')),
          idxOf_append_left b.1 _ _ ((hiff b.1).mp (List.mem_map_of_mem Prod.fst hb'))]
        exact hab
      · intro a ha' b hb'
        simp only [List.mem_singleton] at hb'
        subst hb'
        rw [hkeys]
        have haev : a.1 ∈ ev.map Prod.fst :=
          (hiff a.1).mp (List.mem_map_of_mem Prod.fst ha')
        rw [idxOf_append_left a.1 _ _ haev]
        show idxOf a.1 (ev.map Prod.fst) < idxOf w (ev.map Prod.fst ++ [w])
        rw [idxOf_append_self w _ hwev]
        exact idxOf_lt_length a.1 _ haev

/-! ## The DFS invariant -/

theorem head?_append_ne_nil {α : Type _} (l l' : List α) (h : l ≠ []) :
    (l ++ l').head? = l.head? := by
  cases l with
  | nil => exact absurd rfl h
  | cons x xs => rfl

theorem isNeighbor_of_mem_directions {d : ℤ × ℤ} (hd : d ∈ directions) (r c : ℤ) :
    isNeighbor (r, c) (r + d.1, c + d.2) := by
  have key : ∀ a b : ℤ, a ≤ 1 → -1 ≤ a → b ≤ 1 → -1 ≤ b → ¬(a = 0 ∧ b = 0) →
      isNeighbor (r, c) (r + a, c + b) := by
    intro a b h1 h2 h3 h4 h5
    refine ⟨by simpa using h1, by simpa using h2, by simpa using h3, by simpa using h4,
      fun h => ?_⟩
    rw [Prod.mk.injEq] at h
    exact h5 ⟨by omega, by omega⟩
  simp only [directions, List.mem_cons, List.not_mem_nil, or_false] at hd
  rcases hd with rfl | rfl | rfl | rfl | rfl | rfl | rfl | rfl
  · exact key (-1) (-1) (by omega) (by omega) (by omega) (by omega) (by omega)
  · exact key (-1) 0 (by omega) (by omega) (by omega) (by omega) (by omega)
  · exact key (-1) 1 (by omega) (by omega) (by omega) (by omega) (by omega)
  · exact key 0 (-1) (by omega) (by omega) (by omega) (by omega) (by omega)
  · exact key 0 1 (by omega) (by omega) (by omega) (by omega) (by omega)
  · exact key 1 (-1) (by omega) (by omega) (by omega) (by omega) (by omega)
  · exact key 1 0 (by omega) (by omega) (by omega) (by omega) (by omega)
  · exact key 1 1 (by omega) (by omega) (by omega) (by omega) (by omega)

theorem word_length_of_spell {letter : ℤ → ℤ → Char} {w : String} {path : List Cell}
    (h : w.data = path.map (fun x => letter x.1 x.2)) : w.length = path.length := by
  rw [show w.length = w.data.length from rfl, h, List.length_map]

theorem DfsPre.child (rows cols : ℕ) (letter : ℤ → ℤ → Char) (occ : Finset Cell)
    (maxL : ℕ) (sr sc row col : ℤ) (w : String) (path : List Cell) (vis : Finset Cell)
    (hpre : DfsPre rows cols letter occ maxL sr sc row col w path vis)
    (d : ℤ × ℤ) (hd : d ∈ directions)
    (hb : ¬(row + d.1 < 0 ∨ (rows : ℤ) ≤ row + d.1 ∨ col + d.2 < 0 ∨
      (cols : ℤ) ≤ col + d.2))
    (hv : (row + d.1, col + d.2) ∉ vis)
    (ho : (row + d.1, col + d.2) ∉ occ)
    (hmax : ¬ maxL ≤ w.length) :
    DfsPre rows cols letter occ maxL sr sc (row + d.1) (col + d.2)
      (w.push (letter (row + d.1) (col + d.2)))
      (path ++ [(row + d.1, col + d.2)])
      (insert (row + d.1, col + d.2) vis) := by
  obtain ⟨h1, h2, h3, h4, h5, h6, h7, h8, h9⟩ := hpre
  push_neg at hb
  have hnotmem : (row + d.1, col + d.2) ∉ path := by
    intro hmem
    exact hv (h8 ▸ List.mem_toFinset.mpr hmem)
  have hwlen : w.length = path.length := word_length_of_spell h7
  refine ⟨by simp, ?_, ?_, ?_, ?_, ?_, ?_, ?_, ?_⟩
  · rw [head?_append_ne_nil path _ h1]
    exact h2
  · rw [List.getLast?_concat]
  · rw [List.chain'_append]
    refine ⟨h4, List.chain'_singleton _, ?_⟩
    intro x hx y hy
    rw [h3] at hx
    simp only [Option.mem_def, Option.some.injEq] at hx
    simp only [List.head?_cons, Option.mem_def, Option.some.injEq] at hy
    subst hx
    subst hy
    exact isNeighbor_of_mem_directions hd row col
  · rw [List.nodup_append]
    exact ⟨h5, by simp, fun a ha hb' => by
      simp only [List.mem_singleton] at hb'
      subst hb'
      exact hnotmem ha⟩
  · intro x hx
    rcases List.mem_append.mp hx with hx' | hx'
    · exact h6 x hx'
    · simp only [List.mem_singleton] at hx'
      subst hx'
      exact ⟨⟨by omega, by omega, by omega, by omega⟩, ho⟩
  · rw [String.data_push, h7, List.map_append]
    rfl
  · rw [List.toFinset_append, h8]
    simp only [List.toFinset_cons, List.toFinset_nil, insert_emptyc_eq]
    rw [Finset.insert_eq, Finset.union_comm]
  · rw [List.length_append]
    simp only [List.length_singleton]
    omega

theorem EventOk_of_record (rows cols : ℕ) (letter : ℤ → ℤ → Char)
    (wordSet : List String) (occ : Finset Cell) (bl : List String)
    (minL maxL : ℕ) (sr sc row col : ℤ) (w : String) (path : List Cell)
    (vis : Finset Cell)
    (hpre : DfsPre rows cols letter occ maxL sr sc row col w path vis)
    (hrec : minL ≤ w.length ∧ wordSet.contains w = true ∧ bl.contains w = false) :
    EventOk rows cols letter wordSet occ bl minL maxL sr sc (w, path) := by
  obtain ⟨h1, h2, h3, h4, h5, h6, h7, h8, h9⟩ := hpre
  have hwlen : w.length = path.length := word_length_of_spell h7
  exact ⟨h1, h2, h4, h5, h6, h7, hrec.1, by show w.length ≤ max maxL 1; omega,
    hrec.2.1, hrec.2.2⟩

theorem dfsAux_inv (rows cols : ℕ) (letter : ℤ → ℤ → Char) (tr : Trie)
    (wordSet : List String) (occ : Finset Cell) (bl : List String)
    (minL maxL : ℕ) (sr sc : ℤ) :
    ∀ (fuel : ℕ) (row col : ℤ) (w : String) (path : List Cell) (vis : Finset Cell)
      (acc : List (String × List Cell) × List (String × List Cell)),
      DfsPre rows cols letter occ maxL sr sc row col w path vis →
      DfsInv rows cols letter wordSet occ bl minL maxL sr sc acc →
      DfsInv rows cols letter wordSet occ bl minL maxL sr sc
        (dfsAux rows cols letter tr wordSet occ bl minL maxL fuel row col w path vis
          acc) := by
  intro fuel
  induction fuel with
  | zero => intro _ _ _ _ _ _ _ hinv; exact hinv
  | succ fuel ih =>
    intro row col w path vis acc hpre hinv
    obtain ⟨hE, hU⟩ := hinv
    have hwlen : w.length = path.length :=
      word_length_of_spell hpre.2.2.2.2.2.2.1
    have hinv1 : DfsInv rows cols letter wordSet occ bl minL maxL sr sc
        (if minL ≤ w.length ∧ wordSet.contains w = true ∧ bl.contains w = false then
          (updateUnique w path acc.1, acc.2 ++ [(w, path)]) else acc) := by
      by_cases hrec : minL ≤ w.length ∧ wordSet.contains w = true ∧
          bl.contains w = false
      · rw [if_pos hrec]
        refine ⟨?_, ?_⟩
        · intro e he
          rcases List.mem_append.mp he with h' | h'
          · exact hE e h'
          · simp only [List.mem_singleton] at h'
            subst h'
            exact EventOk_of_record rows cols letter wordSet occ bl minL maxL sr sc
              row col w path vis hpre hrec
        · refine UmEv_record acc.1 acc.2 w path hU ?_
          intro p0 hp0
          have hok := hE (w, p0) hp0
          have hlen0 : w.length = p0.length := word_length_of_spell hok.2.2.2.2.2.1
          omega
      · rw [if_neg hrec]
        exact ⟨hE, hU⟩
    by_cases hmax : maxL ≤ w.length
    · simp only [dfsAux]
      rw [if_pos hmax]
      exact hinv1
    · by_cases hpref : hasPref tr w = false
      · simp only [dfsAux]
        rw [if_neg hmax, if_pos hpref]
        exact hinv1
      · have hfold : ∀ ds : List (ℤ × ℤ), (∀ d ∈ ds, d ∈ directions) →
            ∀ acc', DfsInv rows cols letter wordSet occ bl minL maxL sr sc acc' →
            DfsInv rows cols letter wordSet occ bl minL maxL sr sc
              (ds.foldl (fun acc' d =>
                if row + d.1 < 0 ∨ (rows : ℤ) ≤ row + d.1 ∨ col + d.2 < 0 ∨
                    (cols : ℤ) ≤ col + d.2 then acc'
                else if (row + d.1, col + d.2) ∈ vis then acc'
                else if (row + d.1, col + d.2) ∈ occ then acc'
                else dfsAux rows cols letter tr wordSet occ bl minL maxL fuel
                  (row + d.1) (col + d.2) (w.push (letter (row + d.1) (col + d.2)))
                  (path ++ [(row + d.1, col + d.2)])
                  (insert (row + d.1, col + d.2) vis) acc') acc') := by
          intro ds
          induction ds with
          | nil => intro _ acc' h'; exact h'
          | cons d ds ihd =>
            intro hds acc' h'
            simp only [List.foldl_cons]
            refine ihd (fun d' hd' => hds d' (List.mem_cons_of_mem d hd')) _ ?_
            by_cases h1 : row + d.1 < 0 ∨ (rows : ℤ) ≤ row + d.1 ∨ col + d.2 < 0 ∨
                (cols : ℤ) ≤ col + d.2
            · rw [if_pos h1]; exact h'
            · rw [if_neg h1]
              by_cases h2 : (row + d.1, col + d.2) ∈ vis
              · rw [if_pos h2]; exact h'
              · rw [if_neg h2]
                by_cases h3 : (row + d.1, col + d.2) ∈ occ
                · rw [if_pos h3]; exact h'
                · rw [if_neg h3]
                  exact ih (row + d.1) (col + d.2) _ _ _ _
                    (DfsPre.child rows cols letter occ maxL sr sc row col w path vis
                      hpre d (hds d (List.mem_cons_self d ds)) h1 h2 h3 hmax) h'
        simp only [dfsAux]
        rw [if_neg hmax, if_neg hpref]
        exact hfold directions (fun _ h => h) _ hinv1

theorem DfsInv_nil (rows cols : ℕ) (letter : ℤ → ℤ → Char) (wordSet : List String)
    (occ : Finset Cell) (bl : List String) (minL maxL : ℕ) (sr sc : ℤ) :
    DfsInv rows cols letter wordSet occ bl minL maxL sr sc ([], []) :=
  ⟨fun e he => absurd he (List.not_mem_nil e), List.nodup_nil,
    fun wp h => absurd h (List.not_mem_nil wp), fun _ => Iff.rfl, List.Pairwise.nil⟩

theorem findWordsDFSCore_inv (sv : Solver) (startRow startCol : ℤ)
    (occ : Finset Cell) (bl : List String) (minL maxL : ℕ) :
    DfsInv sv.rows sv.cols (gridLetter sv.grid) sv.wordSet occ bl minL maxL
      startRow startCol
      (findWordsDFSCore sv startRow startCol occ bl minL maxL) := by
  unfold findWordsDFSCore
  by_cases hb : startRow < 0 ∨ (sv.rows : ℤ) ≤ startRow ∨ startCol < 0 ∨
      (sv.cols : ℤ) ≤ startCol
  · rw [if_pos hb]
    apply DfsInv_nil
  · rw [if_neg hb]
    by_cases ho : (startRow, startCol) ∈ occ
    · rw [if_pos ho]
      apply DfsInv_nil
    · rw [if_neg ho]
      push_neg at hb
      refine dfsAux_inv sv.rows sv.cols (gridLetter sv.grid) sv.prefixTree sv.wordSet
        occ bl minL maxL startRow startCol (sv.rows * sv.cols) startRow startCol
        _ _ _ _ ?_ (DfsInv_nil sv.rows sv.cols (gridLetter sv.grid) sv.wordSet occ bl
          minL maxL startRow startCol)
      refine ⟨by simp, rfl, by simp, List.chain'_singleton _, by simp, ?_, rfl,
        by simp, ?_⟩
      · intro x hx
        simp only [List.mem_singleton] at hx
        subst hx
        exact ⟨⟨by omega, by omega, by omega, by omega⟩, ho⟩
      · exact le_max_right maxL 1

/-- C2: every pair `(w, p)` returned by `findWordsDFS` has `p` a nonempty
simple 8-path starting at the start cell, all of whose cells are in bounds
and outside the occupied set, spelling `w` through the uppercased grid
letters, with `minLength ≤ |w| ≤ max maxLength 1`, `w` in the dictionary
word set and not blacklisted.  (Corrected from the claim: the upper bound
is `max maxLength 1`, not `maxLength`, because the start cell is recorded
before the length cutoff applies; and `w` is the uppercased reading of the
grid letters, not their raw concatenation.) -/
theorem findWordsDFS_sound (sv : Solver) (startRow startCol : ℤ)
    (occ : Finset Cell) (bl : List String) (minL maxL : ℕ)
    (wp : String × List Cell)
    (h : wp ∈ findWordsDFS sv startRow startCol occ bl minL maxL) :
    Qualifies sv startRow startCol occ wp.1 wp.2 ∧ minL ≤ wp.1.length ∧
      wp.1.length ≤ max maxL 1 ∧ sv.wordSet.contains wp.1 = true ∧
      bl.contains wp.1 = false := by
  obtain ⟨hE, hU⟩ := findWordsDFSCore_inv sv startRow startCol occ bl minL maxL
  have hmem1 : wp ∈ (findWordsDFSCore sv startRow startCol occ bl minL maxL).1 :=
    (sortByLenDesc_perm _).mem_iff.mp h
  have hmem2 : (wp.1, wp.2) ∈
      (findWordsDFSCore sv startRow startCol occ bl minL maxL).2 :=
    lookup_mem (hU.2.1 wp hmem1)
  obtain ⟨e1, e2, e3, e4, e5, e6, e7, e8, e9, e10⟩ := hE (wp.1, wp.2) hmem2
  exact ⟨⟨e1, e2, e3, e4, e5, String.ext e6.symm⟩, e7, e8, e9, e10⟩

/-- The soundness theorem applied to the concrete 1-by-4 CATS grid, where
the word CATS is returned along the top row. -/
theorem findWordsDFS_sound_witness :
    ("CATS", [((0 : ℤ), (0 : ℤ)), (0, 1), (0, 2), (0, 3)]) ∈
        findWordsDFS svCats 0 0 ∅ [] 4 15 ∧
      (Qualifies svCats 0 0 ∅ "CATS" [(0, 0), (0, 1), (0, 2), (0, 3)] ∧
        4 ≤ "CATS".length ∧ "CATS".length ≤ max 15 1 ∧
        svCats.wordSet.contains "CATS" = true ∧
        ([] : List String).contains "CATS" = false) :=
  ⟨by decide,
    findWordsDFS_sound svCats 0 0 ∅ [] 4 15
      ("CATS", [(0, 0), (0, 1), (0, 2), (0, 3)]) (by decide)⟩

/-- On the lowercase 1-by-1 grid with dictionary ["A"] and bounds
`minLength = maxLength = 0`, `findWordsDFS` returns the uppercase word A:
its length exceeds `maxLength`, and the raw concatenation of the grid
letters along its path is "a", not the returned word — refuting both the
`|w| ≤ maxLength` bound and the raw-letters reading of the claim. -/
theorem findWordsDFS_raw_reading_cex :
    ("A", [((0 : ℤ), (0 : ℤ))]) ∈ findWordsDFS svLower 0 0 ∅ [] 0 0 ∧
      ¬ ("A".length ≤ 0) ∧
      rawWordOf svLower.grid [((0 : ℤ), (0 : ℤ))] = "a" ∧ "a" ≠ "A" := by
  decide

/-- C6: in every `findWordsDFS` result each word appears at most once; the
entry returned for a word is the first `(word, path)` pair the depth-first
search recorded for it under the fixed neighbor order (the stored path is
overwritten only for a strictly longer path, and every qualifying path for
a word has the word's length, so no overwrite ever fires and the first
recorded path is kept); and the returned path has maximum length among all
qualifying simple 8-paths from the start cell spelling that word. -/
theorem findWordsDFS_dedup_longest (sv : Solver) (startRow startCol : ℤ)
    (occ : Finset Cell) (bl : List String) (minL maxL : ℕ) :
    ((findWordsDFS sv startRow startCol occ bl minL maxL).map Prod.fst).Nodup ∧
    ∀ wp ∈ findWordsDFS sv startRow startCol occ bl minL maxL,
      (findWordsDFSCore sv startRow startCol occ bl minL maxL).2.lookup wp.1 =
          some wp.2 ∧
      ∀ p' : List Cell, Qualifies sv startRow startCol occ wp.1 p' →
        p'.length ≤ wp.2.length := by
  obtain ⟨hE, hU⟩ := findWordsDFSCore_inv sv startRow startCol occ bl minL maxL
  constructor
  · exact (((sortByLenDesc_perm _).map Prod.fst).nodup_iff).mpr hU.1
  · intro wp hwp
    have hmem1 : wp ∈ (findWordsDFSCore sv startRow startCol occ bl minL maxL).1 :=
      (sortByLenDesc_perm _).mem_iff.mp hwp
    have hlook := hU.2.1 wp hmem1
    refine ⟨hlook, ?_⟩
    intro p' hq
    have hmem2 : (wp.1, wp.2) ∈
        (findWordsDFSCore sv startRow startCol occ bl minL maxL).2 :=
      lookup_mem hlook
    have hok := hE (wp.1, wp.2) hmem2
    have h1 : wp.1.length = wp.2.length := word_length_of_spell hok.2.2.2.2.2.1
    have h2 : wp.1.length = p'.length :=
      word_length_of_spell (congrArg String.data hq.2.2.2.2.2).symm
    omega

/-- C7: the `findWordsDFS` result is pairwise ordered with word length
descending, equal-length entries appearing in order of each word's first
discovery by the search (measured as the index of the word's first record
event). -/
theorem findWordsDFS_sorted (sv : Solver) (startRow startCol : ℤ)
    (occ : Finset Cell) (bl : List String) (minL maxL : ℕ) :
    (findWordsDFS sv startRow startCol occ bl minL maxL).Pairwise
      (fun a b => b.1.length < a.1.length ∨
        (a.1.length = b.1.length ∧
          idxOf a.1 ((findWordsDFSCore sv startRow startCol occ bl minL
              maxL).2.map Prod.fst) <
            idxOf b.1 ((findWordsDFSCore sv startRow startCol occ bl minL
              maxL).2.map Prod.fst))) := by
  have hU := (findWordsDFSCore_inv sv startRow startCol occ bl minL maxL).2
  unfold findWordsDFS
  exact sortByLenDesc_pairwise _ _ hU.2.2.2

end StrandsSolver
